import Mathlib

/-!
# Verification of the snarkVM elliptic-curve group abstraction

This development embeds the curve-group contracts of
`src/curves/src/traits/group.rs` (traits `ProjectiveCurve`, `AffineCurve`,
`PairingCurve`, `ShortWeierstrassParameters`) in Lean 4.

The trait file under `src/` carries only the declarations and a handful of
provided (default) method bodies: `batch_normalization_into_affine`,
`add_mixed`, `sub_assign_mixed`, `mul_by_cofactor`, `mul_by_a`, `add_b`.
Those provided bodies are translated verbatim.  The concrete
short-Weierstrass Jacobian implementation the traits are instantiated with
is not part of the sampled sources, so the remaining operations are
modelled from the specification, instantiated at a concrete
short-Weierstrass curve over the prime field with five elements:

  y^2 = x^3 + 3*x   over GF(5)

whose point group has order 10 = 2 * 5: cofactor `h = 2`, prime-order
subgroup of order `r = 5`, cofactor inverse `3 = 2⁻¹ mod 5`, and affine
subgroup generator `(1, 2)`.  The scalar field is `ZMod 5`; the base field
is `ZMod 5` as well.  All definitions are executable, so concrete witnesses
evaluate by `decide`.
-/

/-- Base field of the model curve (external field collaborator). -/
abbrev Fq := ZMod 5

/-- Scalar field of the model curve. -/
abbrev Fr := ZMod 5

/-- Modelled from the spec: the short-Weierstrass coefficient `A`
(`ShortWeierstrassParameters::WEIERSTRASS_A`), instantiated for the model
curve. -/
def WEIERSTRASS_A : Fq := 3

/-- Modelled from the spec: the short-Weierstrass coefficient `B`
(`ShortWeierstrassParameters::WEIERSTRASS_B`), instantiated for the model
curve. -/
def WEIERSTRASS_B : Fq := 0

/-- Modelled from the spec: the curve cofactor
(`ShortWeierstrassParameters::COFACTOR`), as a natural number. -/
def COFACTOR : Nat := 2

/-- Modelled from the spec: the cofactor inverse modulo the scalar-field
order (`ShortWeierstrassParameters::COFACTOR_INV`): `2 * 3 = 6 ≡ 1 mod 5`. -/
def COFACTOR_INV : Nat := 3

/-- Order of the prime-order subgroup (the scalar-field characteristic). -/
def SUBGROUP_ORDER : Nat := 5

/-- `mul_by_a` from `ShortWeierstrassParameters` (provided body in the
source): multiply a base-field element by the coefficient `A`. -/
def mul_by_a (elem : Fq) : Fq := elem * WEIERSTRASS_A

/-- `add_b` from `ShortWeierstrassParameters` (provided body in the
source): add the coefficient `B` to a base-field element. -/
def add_b (elem : Fq) : Fq := elem + WEIERSTRASS_B

/-- Field inversion, supplied by the external field collaborator; realised
by Fermat exponentiation `z^(q-2)` so that every definition evaluates. -/
def finv (z : Fq) : Fq := z ^ 3

/-- Big-endian boolean representation of a (small) natural number over a
fixed three-bit window, as produced by a big-endian bit iterator. -/
def natBits3 (n : Nat) : List Bool := [n.testBit 2, n.testBit 1, n.testBit 0]

/-- Affine representation of a short-Weierstrass point: coordinates plus an
infinity flag, as in the implementing `Affine` struct the trait refers to. -/
structure Affine where
  x : Fq
  y : Fq
  infinity : Bool
deriving DecidableEq, Repr

/-- Jacobian projective representation: `(X, Y, Z)` standing for the affine
point `(X / Z^2, Y / Z^3)`, the identity having `Z = 0`. -/
structure Projective where
  x : Fq
  y : Fq
  z : Fq
deriving DecidableEq, Repr

namespace Affine

/-- The affine identity (point at infinity), with canonical coordinates. -/
def zero : Affine := ⟨0, 1, true⟩

/-- `is_zero` for affine points: the infinity flag. -/
def isZero (p : Affine) : Bool := p.infinity

/-- Affine negation: negate the `y`-coordinate of a finite point. -/
def neg (p : Affine) : Affine := if p.infinity then p else ⟨p.x, -p.y, false⟩

/-- Modelled from the spec: `is_on_curve` checks the curve equation
`y^2 = x^3 + A*x + B` (the identity counts as on-curve). -/
def is_on_curve (p : Affine) : Prop :=
  p.infinity = true ∨ p.y ^ 2 = add_b (p.x ^ 2 * p.x + mul_by_a p.x)

instance (p : Affine) : Decidable p.is_on_curve := by
  unfold is_on_curve; infer_instance

/-- A structurally valid affine value: if the infinity flag is set the
coordinates are the canonical ones of the identity. -/
def wellFormed (p : Affine) : Prop := p.infinity = true → p = Affine.zero

instance (p : Affine) : Decidable p.wellFormed := by
  unfold wellFormed; infer_instance

/-- `AffineCurve::prime_subgroup_generator` for the model curve: the point
`(1, 2)`, of order 5. -/
def prime_subgroup_generator : Affine := ⟨1, 2, false⟩

end Affine

namespace Projective

/-- The projective identity: `Z = 0` (canonical coordinates `(1, 1, 0)`). -/
def zero : Projective := ⟨1, 1, 0⟩

/-- `is_zero` for Jacobian points: the `Z`-coordinate vanishes. -/
def isZero (p : Projective) : Bool := p.z == 0

/-- `ProjectiveCurve::is_normalized`: the point is the identity or its
scaling factor is one, so affine conversion is free. -/
def is_normalized (p : Projective) : Bool := p.isZero || p.z == 1

/-- `ProjectiveCurve::to_affine`, modelled from the spec: one field
inversion of the scaling factor; the identity (`Z = 0`) maps to the affine
identity. -/
def to_affine (p : Projective) : Affine :=
  if p.z = 0 then Affine.zero
  else
    let zinv := finv p.z
    ⟨p.x * zinv ^ 2, p.y * zinv ^ 3, false⟩

/-- Modelled from the spec: Jacobian point doubling
(self-contained group law `double` / `double_in_place`). -/
def double (p : Projective) : Projective :=
  if p.isZero then p
  else
    let s := 4 * p.x * p.y ^ 2
    let m := 3 * p.x ^ 2 + mul_by_a (p.z ^ 2 * p.z ^ 2)
    let x3 := m ^ 2 - 2 * s
    ⟨x3, m * (s - x3) - 8 * p.y ^ 4, 2 * p.y * p.z⟩

/-- Modelled from the spec: full Jacobian addition (the `Add` bound of
`ProjectiveCurve`). -/
def add (p q : Projective) : Projective :=
  if p.isZero then q
  else if q.isZero then p
  else
    let z1z1 := p.z ^ 2
    let z2z2 := q.z ^ 2
    let u1 := p.x * z2z2
    let u2 := q.x * z1z1
    let s1 := p.y * q.z * z2z2
    let s2 := q.y * p.z * z1z1
    if u1 = u2 ∧ s1 = s2 then p.double
    else
      let h := u2 - u1
      let r := s2 - s1
      let x3 := r ^ 2 - h ^ 2 * h - 2 * (u1 * h ^ 2)
      ⟨x3, r * (u1 * h ^ 2 - x3) - s1 * (h ^ 2 * h), h * p.z * q.z⟩

/-- Modelled from the spec: `ProjectiveCurve::add_assign_mixed`, the
cheaper mixed-coordinate addition of an affine operand (`Z2 = 1`). -/
def add_assign_mixed (p : Projective) (q : Affine) : Projective :=
  if q.isZero then p
  else if p.isZero then ⟨q.x, q.y, 1⟩
  else
    let z1z1 := p.z ^ 2
    let u2 := q.x * z1z1
    let s2 := q.y * p.z * z1z1
    if p.x = u2 ∧ p.y = s2 then p.double
    else
      let h := u2 - p.x
      let r := s2 - p.y
      let x3 := r ^ 2 - h ^ 2 * h - 2 * (p.x * h ^ 2)
      ⟨x3, r * (p.x * h ^ 2 - x3) - p.y * (h ^ 2 * h), h * p.z⟩

/-- `ProjectiveCurve::add_mixed` (provided body in the source): operate on
a copy via `add_assign_mixed`. -/
def add_mixed (p : Projective) (q : Affine) : Projective := p.add_assign_mixed q

/-- `ProjectiveCurve::sub_assign_mixed` (provided body in the source):
addition of the negated affine operand. -/
def sub_assign_mixed (p : Projective) (q : Affine) : Projective :=
  p.add_assign_mixed q.neg

/-- Equality of projective points as equivalence classes under scaling:
two representatives are equal when they normalise to the same affine
point (each class corresponds to exactly one affine point). -/
def eqv (p q : Projective) : Prop := p.to_affine = q.to_affine

instance (p q : Projective) : Decidable (p.eqv q) := by
  unfold eqv; infer_instance

end Projective

namespace Affine

/-- `AffineCurve::to_projective`, modelled from the spec: embed a finite
point with scaling factor one; the identity maps to the projective
identity. -/
def to_projective (p : Affine) : Projective :=
  if p.infinity then Projective.zero else ⟨p.x, p.y, 1⟩

/-- Modelled from the spec: `AffineCurve::mul_bits`, double-and-add scalar
multiplication over a most-significant-bit-first boolean sequence of
arbitrary length, returning a projective point. -/
def mul_bits (p : Affine) (bits : List Bool) : Projective :=
  bits.foldl
    (fun acc bit =>
      let acc := acc.double
      if bit then acc.add_assign_mixed p else acc)
    Projective.zero

/-- Modelled from the spec: `AffineCurve::mul_by_cofactor_to_projective`,
multiplication by the cofactor via its big-endian bits. -/
def mul_by_cofactor_to_projective (p : Affine) : Projective :=
  p.mul_bits (natBits3 COFACTOR)

/-- `AffineCurve::mul_by_cofactor` (provided body in the source):
`mul_by_cofactor_to_projective` converted back to affine. -/
def mul_by_cofactor (p : Affine) : Affine :=
  p.mul_by_cofactor_to_projective.to_affine

/-- Modelled from the spec: `AffineCurve::mul_by_cofactor_inv`,
multiplication by the inverse of the cofactor modulo the scalar-field
order. -/
def mul_by_cofactor_inv (p : Affine) : Affine :=
  (p.mul_bits (natBits3 COFACTOR_INV)).to_affine

/-- Modelled from the spec:
`AffineCurve::is_in_correct_subgroup_assuming_on_curve` by plain scalar
multiplication by the subgroup order. -/
def is_in_correct_subgroup_assuming_on_curve (p : Affine) : Prop :=
  (p.mul_bits (natBits3 SUBGROUP_ORDER)).isZero = true

instance (p : Affine) : Decidable p.is_in_correct_subgroup_assuming_on_curve := by
  unfold is_in_correct_subgroup_assuming_on_curve; infer_instance

end Affine

instance : Fact (Nat.Prime 5) := ⟨by norm_num⟩

/-- Modelled from the spec: the back-substitution phase of Montgomery's
simultaneous inversion.  `tmp` is the single inverted running product of
`zs`; each element's inverse is recovered by multiplying `tmp` with the
product of the other elements, updating `tmp` as the pass advances. -/
def backSubstitution : List Fq → Fq → List Fq
  | [], _ => []
  | z :: zs, tmp => (tmp * zs.prod) :: backSubstitution zs (tmp * z)

/-- Modelled from the spec: simultaneous inversion via the
running-product/back-substitution technique, using exactly one field
inversion (of the product of all factors). -/
def montgomeryInverses (zs : List Fq) : List Fq :=
  backSubstitution zs (finv zs.prod)

/-- Modelled from the spec: the finalisation pass of `batch_normalization`:
thread the computed inverses through the sequence in order, rescaling each
non-normalized element to scaling factor one; already-normalized elements
(the identity among them) are left untouched. -/
def applyInverses : List Projective → List Fq → List Projective
  | [], _ => []
  | g :: gs, invs =>
    if g.is_normalized then g :: applyInverses gs invs
    else
      match invs with
      | [] => g :: applyInverses gs []
      | zi :: rest => ⟨g.x * zi ^ 2, g.y * zi ^ 3, 1⟩ :: applyInverses gs rest

/-- Modelled from the spec: `ProjectiveCurve::batch_normalization`:
normalize a sequence of projective elements with one shared field
inversion; the identity's zero factor is skipped in the running product. -/
def batch_normalization (v : List Projective) : List Projective :=
  applyInverses v
    (montgomeryInverses ((v.filter (fun g => !g.is_normalized)).map Projective.z))

/-- `ProjectiveCurve::batch_normalization_into_affine` (provided body in
the source): run `batch_normalization`, then convert every element to its
affine form in the original order. -/
def batch_normalization_into_affine (v : List Projective) : List Affine :=
  (batch_normalization v).map Projective.to_affine

/-- Modelled from the spec: target field of the pairing layer
(`PairingCurve::PairingResult`), instantiated as `ZMod 11`, which contains
the fifth roots of unity needed for a subgroup of order 5. -/
abbrev Fqt := ZMod 11

/-- A fixed primitive fifth root of unity in the target field. -/
def PAIRING_ZETA : Fqt := 3

/-- Modelled from the spec: `PairingCurve::prepare`, the precomputed
per-point pairing data; for the model pairing this is the discrete
logarithm of the point with respect to the subgroup generator. -/
def Affine.prepare (p : Affine) : Nat :=
  (List.range SUBGROUP_ORDER).findIdx
    (fun k => (Affine.prime_subgroup_generator.mul_bits (natBits3 k)).to_affine == p)

/-- Modelled from the spec: `PairingCurve::pairing_with`, a deterministic
bilinear map into the target field computed from the prepared data of both
arguments (the pairing engine itself is an external collaborator). -/
def Affine.pairing_with (p q : Affine) : Fqt :=
  PAIRING_ZETA ^ (p.prepare * q.prepare)

/-- Modelled from the spec: the `Mul<ScalarField>` bound of `AffineCurve`:
scalar multiplication by a scalar-field element via its big-endian bits. -/
def Affine.mul_scalar (p : Affine) (a : Fr) : Affine :=
  (p.mul_bits (natBits3 a.val)).to_affine

/-- Square root in the base field by exhaustive search (the external field
collaborator's square-root operation). -/
def sqrtOpt (a : Fq) : Option Fq :=
  ((List.range 5).find? (fun n => (n : Fq) * (n : Fq) == a)).map (fun n => (n : Fq))

/-- Modelled from the spec: `AffineCurve::from_x_coordinate`: solve the
curve equation for `y` given `x`; empty when no root exists; with two
roots, `greatest` selects the lexicographically largest `y` under the
canonical big-integer ordering of field elements. -/
def Affine.from_x_coordinate (x : Fq) (greatest : Bool) : Option Affine :=
  let x3b := add_b (x ^ 2 * x + mul_by_a x)
  (sqrtOpt x3b).map (fun y =>
    let negy := -y
    let ysel := if xor (decide (y.val < negy.val)) greatest then y else negy
    ⟨x, ysel, false⟩)

/-- Modelled from the spec: the application-level JSON (de)serialization
collaborator (`serde_json` together with the derived `ProverSolution`
serializers, which are outside the sampled sources and outside the spec's
scope): a codec carrying its round-trip contract. -/
structure JsonCodec (α : Type) where
  to_json : α → String
  of_json : String → Except String α
  round_trip : ∀ a : α, of_json (to_json a) = Except.ok a

/-- `Display for ProverSolution` (source): prints via
`serde_json::to_string`. -/
def displayFmt {α : Type} (c : JsonCodec α) (s : α) : String := c.to_json s

/-- `Debug for ProverSolution` (source): delegates to the `Display`
implementation. -/
def debugFmt {α : Type} (c : JsonCodec α) (s : α) : String := displayFmt c s

/-- `ProverSolution::from_str` (source): parse via `serde_json::from_str`. -/
def from_str {α : Type} (c : JsonCodec α) (s : String) : Except String α := c.of_json s

/-- A miniature stand-in for the `ProverSolution` payload, used to exhibit
a concrete codec satisfying the round-trip contract. -/
structure ProverSolution where
  nonce : Bool
deriving DecidableEq

/-- A concrete JSON codec for the miniature `ProverSolution`,
demonstrating that the codec contract is satisfiable. -/
def proverSolutionCodec : JsonCodec ProverSolution where
  to_json s := if s.nonce then "\x7b\"nonce\":true\x7d" else "\x7b\"nonce\":false\x7d"
  of_json str :=
    if str = "\x7b\"nonce\":true\x7d" then Except.ok ⟨true⟩
    else if str = "\x7b\"nonce\":false\x7d" then Except.ok ⟨false⟩
    else Except.error "invalid JSON"
  round_trip := by intro a; cases a with | mk b => cases b <;> rfl

/-- **C1** — Cofactor clearing: for every on-curve affine point `X`
(whether or not `X` is in the prime-order subgroup), `mul_by_cofactor X`
(defined as `mul_by_cofactor_to_projective` converted back to affine) is a
point for which `is_in_correct_subgroup_assuming_on_curve` holds. -/
theorem mul_by_cofactor_clears_cofactor :
    ∀ (x y : Fq) (i : Bool), (Affine.mk x y i).is_on_curve →
      (Affine.mk x y i).mul_by_cofactor.is_in_correct_subgroup_assuming_on_curve := by
  decide

/-- Witness for C1 at the on-curve, non-subgroup point `(2, 2)`. -/
theorem mul_by_cofactor_clears_cofactor_witness :
    (Affine.mk 2 2 false).is_on_curve ∧
      ¬ (Affine.mk 2 2 false).is_in_correct_subgroup_assuming_on_curve ∧
      (Affine.mk 2 2 false).mul_by_cofactor.is_in_correct_subgroup_assuming_on_curve :=
  ⟨by decide, by decide, mul_by_cofactor_clears_cofactor 2 2 false (by decide)⟩

/-- **C2** — Cofactor inverse round trip: for every affine point `P` of the
prime-order subgroup (an on-curve point passing the subgroup check, with
canonical identity coordinates), `mul_by_cofactor (mul_by_cofactor_inv P)`
equals `P`. -/
theorem mul_by_cofactor_inv_round_trip :
    ∀ (x y : Fq) (i : Bool), (Affine.mk x y i).is_on_curve →
      (Affine.mk x y i).is_in_correct_subgroup_assuming_on_curve →
      (Affine.mk x y i).wellFormed →
      (Affine.mk x y i).mul_by_cofactor_inv.mul_by_cofactor = Affine.mk x y i := by
  decide

/-- Witness for C2 at the subgroup generator `(1, 2)`. -/
theorem mul_by_cofactor_inv_round_trip_witness :
    (Affine.mk 1 2 false).is_on_curve ∧
      (Affine.mk 1 2 false).is_in_correct_subgroup_assuming_on_curve ∧
      (Affine.mk 1 2 false).mul_by_cofactor_inv.mul_by_cofactor = Affine.mk 1 2 false :=
  ⟨by decide, by decide,
    mul_by_cofactor_inv_round_trip 1 2 false (by decide) (by decide) (by decide)⟩

/-- **C3** — Affine/projective round trip: for every valid affine point `P`
(the identity carried with its canonical coordinates), converting `P` to
its projective representation with `to_projective` and back with
`to_affine` yields `P` again. -/
theorem to_projective_to_affine_round_trip :
    ∀ (x y : Fq) (i : Bool), (Affine.mk x y i).wellFormed →
      (Affine.mk x y i).to_projective.to_affine = Affine.mk x y i := by
  decide

/-- Witness for C3 at the on-curve point `(3, 1)` and at the identity. -/
theorem to_projective_to_affine_round_trip_witness :
    (Affine.mk 3 1 false).to_projective.to_affine = Affine.mk 3 1 false ∧
      Affine.zero.to_projective.to_affine = Affine.zero :=
  ⟨to_projective_to_affine_round_trip 3 1 false (by decide),
    to_projective_to_affine_round_trip 0 1 true (by decide)⟩

/-- Adding the projective identity leaves the affine value of a point
unchanged. -/
theorem add_zero_eqv :
    ∀ x y z : Fq, ((Projective.mk x y z).add Projective.zero).eqv (Projective.mk x y z) := by
  decide

set_option maxHeartbeats 4000000 in
/-- For a finite affine operand, the mixed addition formula produces the
very same Jacobian representative as full addition of the embedded
operand. -/
theorem add_mixed_finite_eq :
    ∀ ax ay az bx by2 : Fq,
      (Projective.mk ax ay az).add_mixed (Affine.mk bx by2 false)
        = (Projective.mk ax ay az).add (Affine.mk bx by2 false).to_projective := by
  decide

/-- **C5** — Mixed addition equivalence: for every projective point `A` and
affine point `B`, `A.add_mixed B` equals (as a point of the curve, i.e. as
an equivalence class under scaling) `A + to_projective B`, and `add_mixed`
operates on a copy via `add_assign_mixed`, leaving `A` itself unchanged. -/
theorem add_mixed_equiv_add_to_projective :
    (∀ (ax ay az bx by2 : Fq) (bi : Bool),
      ((Projective.mk ax ay az).add_mixed (Affine.mk bx by2 bi)).eqv
        ((Projective.mk ax ay az).add (Affine.mk bx by2 bi).to_projective)) ∧
    (∀ (a : Projective) (b : Affine), a.add_mixed b = a.add_assign_mixed b) := by
  refine ⟨?_, fun _ _ => rfl⟩
  intro ax ay az bx by2 bi
  cases bi with
  | false =>
    rw [add_mixed_finite_eq ax ay az bx by2]
    exact rfl
  | true =>
    exact (add_zero_eqv ax ay az).symm

/-- **C6** — Mixed subtraction is addition of the negation: for every
projective point `A` and affine point `B`, `sub_assign_mixed A B` produces
the same state as `add_assign_mixed A (-B)`, `-B` being the affine
negation of `B`. -/
theorem sub_assign_mixed_is_add_neg :
    ∀ (a : Projective) (b : Affine), a.sub_assign_mixed b = a.add_assign_mixed b.neg :=
  fun _ _ => rfl

/-- **C9** — Scalar multiplication by bits: `mul_bits` on the generator `G`
with the most-significant-bit-first sequence `[1, 0, 1]` (the value 5)
equals `G + G + G + G + G` computed by repeated addition. -/
theorem mul_bits_five_on_generator :
    (Affine.prime_subgroup_generator.mul_bits [true, false, true]).eqv
      ((((Affine.prime_subgroup_generator.to_projective.add
            Affine.prime_subgroup_generator.to_projective).add
          Affine.prime_subgroup_generator.to_projective).add
        Affine.prime_subgroup_generator.to_projective).add
       Affine.prime_subgroup_generator.to_projective) := by
  decide

/-- The cube map realises field inversion on nonzero elements. -/
theorem finv_mul_cancel : ∀ a : Fq, a ≠ 0 → a * finv a = 1 := by decide

/-- `finv` agrees with the field inverse everywhere. -/
theorem finv_eq (a : Fq) : finv a = a⁻¹ := by
  rcases eq_or_ne a 0 with h | h
  · subst h
    show (0 : Fq) ^ 3 = (0 : Fq)⁻¹
    rw [inv_zero, zero_pow (by norm_num)]
  · exact eq_inv_of_mul_eq_one_right (finv_mul_cancel a h)

/-- Correctness of the back-substitution pass: started from the single
inverted running product it recovers every individual inverse. -/
theorem backSubstitution_inverses :
    ∀ zs : List Fq, (0 : Fq) ∉ zs →
      backSubstitution zs (finv zs.prod) = zs.map finv := by
  intro zs
  induction zs with
  | nil => intro _; rfl
  | cons z t ih =>
    intro h0
    have hz : z ≠ 0 := fun h => h0 (h ▸ List.mem_cons_self z t)
    have ht : (0 : Fq) ∉ t := fun h => h0 (List.mem_cons_of_mem z h)
    have hp : t.prod ≠ 0 := List.prod_ne_zero ht
    show finv (z :: t).prod * t.prod :: backSubstitution t (finv (z :: t).prod * z)
        = finv z :: t.map finv
    have h1 : finv (z :: t).prod * t.prod = finv z := by
      rw [finv_eq, finv_eq, List.prod_cons, mul_inv_rev]
      field_simp
    have h2 : finv (z :: t).prod * z = finv t.prod := by
      rw [finv_eq, finv_eq, List.prod_cons, mul_inv_rev]
      field_simp
      ring
    rw [h1, h2, ih ht]

/-- Montgomery's simultaneous inversion computes all the inverses. -/
theorem montgomeryInverses_eq (zs : List Fq) (h0 : (0 : Fq) ∉ zs) :
    montgomeryInverses zs = zs.map finv :=
  backSubstitution_inverses zs h0

/-- Rescaling a Jacobian point by the inverse of its scaling factor does
not change the affine point it denotes. -/
theorem rescale_to_affine :
    ∀ x y z : Fq, z ≠ 0 →
      (Projective.mk (x * finv z ^ 2) (y * finv z ^ 3) 1).to_affine
        = (Projective.mk x y z).to_affine := by
  decide

/-- A non-normalized element has a nonzero scaling factor. -/
theorem not_normalized_z_ne_zero (g : Projective) (h : ¬ g.is_normalized = true) :
    g.z ≠ 0 := by
  simp [Projective.is_normalized, Projective.isZero] at h
  exact h.1

/-- The finalisation pass, fed the true inverses of the non-normalized
scaling factors, leaves every element's affine value unchanged. -/
theorem applyInverses_to_affine :
    ∀ v : List Projective,
      (applyInverses v
        (((v.filter (fun g => !g.is_normalized)).map Projective.z).map finv)).map
          Projective.to_affine
        = v.map Projective.to_affine := by
  intro v
  induction v with
  | nil => rfl
  | cons g gs ih =>
    by_cases hg : g.is_normalized = true
    · rw [List.filter_cons_of_neg (by simp [hg])]
      simp only [applyInverses, if_pos hg, List.map_cons]
      rw [ih]
    · rw [List.filter_cons_of_pos (by simp [Bool.not_eq_true] at hg ⊢; exact hg)]
      simp only [applyInverses, if_neg hg, List.map_cons]
      rw [rescale_to_affine g.x g.y g.z (not_normalized_z_ne_zero g hg), ih]

/-- **C4** — Batch normalization equivalence: for every sequence of
projective points (any length, the identity allowed among them),
`batch_normalization_into_affine` — `batch_normalization` followed by
affine conversion of every element in the original order — is element-wise
equal to calling `to_affine` independently on each original element. -/
theorem batch_normalization_into_affine_eq (v : List Projective) :
    batch_normalization_into_affine v = v.map Projective.to_affine := by
  unfold batch_normalization_into_affine batch_normalization
  rw [montgomeryInverses_eq _ ?_]
  · exact applyInverses_to_affine v
  · intro hmem
    simp only [List.mem_map, List.mem_filter] at hmem
    obtain ⟨g, ⟨_, hns⟩, hz⟩ := hmem
    have hns2 : g.is_normalized = false := by simpa using hns
    exact not_normalized_z_ne_zero g (by simp [hns2]) hz

set_option maxHeartbeats 4000000 in
/-- **C7** — Pairing determinism and bilinearity: `pairing_with` is a pure
function (repeated evaluations on the same inputs are identical), and for
all scalars `a`, `b` and on-curve prime-order-subgroup points `P`, `Q`
(identity carried with canonical coordinates),
`pairing_with (a·P) (b·Q) = (pairing_with P Q) ^ (a·b)` in the target
field. -/
theorem pairing_with_deterministic_and_bilinear :
    (∀ p q : Affine, p.pairing_with q = p.pairing_with q) ∧
    (∀ (px py : Fq) (pi2 : Bool),
      (Affine.mk px py pi2).is_on_curve →
      (Affine.mk px py pi2).is_in_correct_subgroup_assuming_on_curve →
      (Affine.mk px py pi2).wellFormed →
      ∀ (qx qy : Fq) (qi : Bool),
        (Affine.mk qx qy qi).is_on_curve →
        (Affine.mk qx qy qi).is_in_correct_subgroup_assuming_on_curve →
        (Affine.mk qx qy qi).wellFormed →
        ∀ a b : Fr,
          ((Affine.mk px py pi2).mul_scalar a).pairing_with
              ((Affine.mk qx qy qi).mul_scalar b)
            = ((Affine.mk px py pi2).pairing_with (Affine.mk qx qy qi))
                ^ (a * b : Fr).val) :=
  ⟨fun _ _ => rfl, by decide⟩

/-- Witness for C7 at `P = Q = (1, 2)` (the subgroup generator), `a = 2`,
`b = 3`. -/
theorem pairing_with_deterministic_and_bilinear_witness :
    ((Affine.mk 1 2 false).mul_scalar 2).pairing_with
        ((Affine.mk 1 2 false).mul_scalar 3)
      = ((Affine.mk 1 2 false).pairing_with (Affine.mk 1 2 false))
          ^ ((2 * 3 : Fr)).val :=
  pairing_with_deterministic_and_bilinear.2 1 2 false (by decide) (by decide)
    (by decide) 1 2 false (by decide) (by decide) (by decide) 2 3

/-- **C8** — Coordinate reconstruction: for every base-field element `x`,
`from_x_coordinate x greatest` is empty exactly when the curve equation
has no `y`-root at `x`; and whenever two distinct roots `y0`, `-y0` exist,
the `greatest = true` call returns the point whose `y` is the
lexicographically largest of the two roots under the canonical big-integer
ordering (the returned `y` is itself a root, equal to `y0` or `-y0`), the
`greatest = false` call returns the other root, and the two returned
`y`-coordinates are additive inverses. -/
theorem from_x_coordinate_roots :
    ∀ x : Fq,
      (∀ g : Bool,
        (Affine.from_x_coordinate x g = none ↔
          ¬ ∃ y : Fq, y ^ 2 = add_b (x ^ 2 * x + mul_by_a x))) ∧
      (∀ y0 : Fq, y0 ^ 2 = add_b (x ^ 2 * x + mul_by_a x) → y0 ≠ -y0 →
        ∃ yt yf : Fq,
          Affine.from_x_coordinate x true = some ⟨x, yt, false⟩ ∧
          Affine.from_x_coordinate x false = some ⟨x, yf, false⟩ ∧
          yt ^ 2 = add_b (x ^ 2 * x + mul_by_a x) ∧
          (yt = y0 ∨ yt = -y0) ∧
          yf = -yt ∧ yf.val < yt.val) := by
  decide

/-- Witness for C8 at `x = 1`, which admits the two roots `2` and `3`. -/
theorem from_x_coordinate_roots_witness :
    ∃ yt yf : Fq,
      Affine.from_x_coordinate 1 true = some ⟨1, yt, false⟩ ∧
      Affine.from_x_coordinate 1 false = some ⟨1, yf, false⟩ ∧
      yt ^ 2 = add_b (1 ^ 2 * 1 + mul_by_a 1) ∧
      (yt = 2 ∨ yt = -2) ∧
      yf = -yt ∧ yf.val < yt.val :=
  (from_x_coordinate_roots 1).2 2 (by decide) (by decide)

/-- **C10** — `ProverSolution` string round trip: formatting with
`Display` produces the codec's JSON string, `Debug` produces the identical
string, and parsing that string back with `from_str` succeeds and returns
the original value. -/
theorem prover_solution_string_round_trip {α : Type} (c : JsonCodec α) (s : α) :
    debugFmt c s = displayFmt c s ∧ from_str c (displayFmt c s) = Except.ok s :=
  ⟨rfl, c.round_trip s⟩

/-- Witness for C10 at the concrete miniature codec and solution. -/
theorem prover_solution_string_round_trip_witness :
    debugFmt proverSolutionCodec ⟨true⟩ = displayFmt proverSolutionCodec ⟨true⟩ ∧
      from_str proverSolutionCodec (displayFmt proverSolutionCodec ⟨true⟩)
        = Except.ok ⟨true⟩ :=
  prover_solution_string_round_trip proverSolutionCodec ⟨true⟩
